import Mathlib

/-!
Shallow embedding of the audio pipeline of the Simultaneous-Interpreter
repository (src/hooks/useGeminiTranslator.ts and the audio-utils module
concatenated into the same source file), together with proofs of the
specification claims about it.

Numeric model: JS numbers on the code paths under study hold integers and
small-sample audio values; we model them by exact rationals, `Math.round`
by floor of x plus one half (its semantics on non-NaN input), and the
`DataView`/`TypedArray` integer conversions by explicit truncation and
modular arithmetic.
-/

namespace SimInterp

/-- JS `Math.round`: floor of the argument plus one half. -/
def jsRound (q : ℚ) : ℤ := ⌊q + 1 / 2⌋

/-- JS truncation toward zero, as used by `ToInt16` in `DataView.setInt16`. -/
def jsTrunc (q : ℚ) : ℤ := if q < 0 then ⌈q⌉ else ⌊q⌋

/-! ## Resampler: `downsampleBuffer` (audio-utils) -/

/-- One iteration body of the `while (offsetResult < result.length)` loop of
`downsampleBuffer`, expressed as fuel-indexed recursion; the fuel equals the
number of remaining output slots (`result.length - offsetResult`), so the
recursion performs exactly the iterations of the source loop.  The inner
`for (i = offsetBuffer; i < nextOffsetBuffer && i < buffer.length; i++)`
accumulates `count` samples; when `count = 0` the source computes `0/0`
(JS `NaN`) where rational division yields `0` — the safety claim shows the
`count = 0` case is unreachable in the downsampling regime. -/
def downsampleLoop (buffer : List ℚ) (ratio : ℚ) : ℕ → ℕ → ℕ → List ℚ
  | 0, _, _ => []
  | n + 1, offsetResult, offsetBuffer =>
    let nextOffsetBuffer : ℕ := (jsRound (((offsetResult : ℚ) + 1) * ratio)).toNat
    let count : ℕ := min nextOffsetBuffer buffer.length - offsetBuffer
    let accum : ℚ := ((List.range' offsetBuffer count).map (fun i => buffer.getD i 0)).sum
    accum / (count : ℚ) :: downsampleLoop buffer ratio n (offsetResult + 1) nextOffsetBuffer

/-- `downsampleBuffer(buffer, sampleRate, outSampleRate)` from audio-utils:
identity when the rates agree, an error when asked to upsample, else
box-filter decimation with output length `Math.round(len / ratio)`. -/
def downsampleBuffer (buffer : List ℚ) (sampleRate outSampleRate : ℚ) :
    Except String (List ℚ) :=
  if outSampleRate = sampleRate then .ok buffer
  else if sampleRate < outSampleRate then
    .error "Downsampling rate must be smaller than original sample rate"
  else
    let sampleRateRatio := sampleRate / outSampleRate
    let newLength := (jsRound ((buffer.length : ℚ) / sampleRateRatio)).toNat
    .ok (downsampleLoop buffer sampleRateRatio newLength 0 0)

/-- Start index of the averaging window of output slot `j`
(the value `offsetBuffer` holds when slot `j` is produced). -/
def dsWindowStart (ratio : ℚ) (j : ℕ) : ℕ := (jsRound ((j : ℚ) * ratio)).toNat

/-- Number of input samples averaged into output slot `j`. -/
def dsCount (len : ℕ) (ratio : ℚ) (j : ℕ) : ℕ :=
  min (dsWindowStart ratio (j + 1)) len - dsWindowStart ratio j

/-- Sum of the input samples averaged into output slot `j`. -/
def dsSum (buffer : List ℚ) (ratio : ℚ) (j : ℕ) : ℚ :=
  ((List.range' (dsWindowStart ratio j) (dsCount buffer.length ratio j)).map
    (fun i => buffer.getD i 0)).sum

theorem downsampleLoop_length (buffer : List ℚ) (ratio : ℚ) :
    ∀ n i ob, (downsampleLoop buffer ratio n i ob).length = n
  | 0, _, _ => rfl
  | n + 1, i, ob => by
    simp [downsampleLoop, downsampleLoop_length buffer ratio n]

theorem downsampleLoop_eq_map (buffer : List ℚ) (ratio : ℚ) :
    ∀ n i, downsampleLoop buffer ratio n i (dsWindowStart ratio i) =
      (List.range' i n).map
        (fun j => dsSum buffer ratio j / (dsCount buffer.length ratio j : ℚ))
  | 0, _ => rfl
  | n + 1, i => by
    have ih := downsampleLoop_eq_map buffer ratio n (i + 1)
    have hnext : (jsRound (((i : ℚ) + 1) * ratio)).toNat = dsWindowStart ratio (i + 1) := by
      unfold dsWindowStart
      push_cast
      ring_nf
    simp only [downsampleLoop, List.range', List.map_cons, hnext, ih]
    simp [dsSum, dsCount]

theorem jsRound_natCast (n : ℕ) : jsRound (n : ℚ) = n := by
  unfold jsRound
  rw [add_comm, Int.floor_add_nat]
  norm_num

theorem jsRound_nonneg {q : ℚ} (h : 0 ≤ q) : 0 ≤ jsRound q := by
  unfold jsRound
  positivity

/-- In the strict-downsampling regime the averaging window of every produced
output slot starts strictly inside the input and is strictly shorter than
the next slot's start, so it contains at least one input sample. -/
theorem dsWindow_step {len j : ℕ} {ratio : ℚ} (h1 : 1 < ratio)
    (hj : j < (jsRound ((len : ℚ) / ratio)).toNat) :
    dsWindowStart ratio j < len ∧ dsWindowStart ratio j < dsWindowStart ratio (j + 1) := by
  have hR0 : (0 : ℚ) < ratio := lt_trans one_pos h1
  have hjZ : (j : ℤ) < jsRound ((len : ℚ) / ratio) := Int.lt_toNat.mp hj
  have hfloor : ((jsRound ((len : ℚ) / ratio) : ℤ) : ℚ) ≤ (len : ℚ) / ratio + 1 / 2 :=
    Int.floor_le _
  have hjq : (j : ℚ) + 1 ≤ (len : ℚ) / ratio + 1 / 2 := by
    have : ((j : ℤ) : ℚ) + 1 ≤ ((jsRound ((len : ℚ) / ratio) : ℤ) : ℚ) := by
      exact_mod_cast hjZ
    push_cast at this ⊢
    linarith
  have hmul : (j : ℚ) * ratio ≤ (len : ℚ) - ratio / 2 := by
    have h2 : ((j : ℚ) + 1 / 2) * ratio ≤ (len : ℚ) := by
      have := mul_le_mul_of_nonneg_right (by linarith : (j : ℚ) + 1 / 2 ≤ (len : ℚ) / ratio)
        (le_of_lt hR0)
      calc ((j : ℚ) + 1 / 2) * ratio ≤ (len : ℚ) / ratio * ratio := this
        _ = (len : ℚ) := by field_simp
    nlinarith
  have hltq : (j : ℚ) * ratio + 1 / 2 < (len : ℚ) := by linarith
  have hposArg : (0 : ℚ) ≤ (j : ℚ) * ratio + 1 / 2 := by positivity
  have hfl_lt : ⌊(j : ℚ) * ratio + 1 / 2⌋ < (len : ℤ) := by
    exact Int.floor_lt.mpr (by exact_mod_cast hltq)
  have hfl_nonneg : 0 ≤ ⌊(j : ℚ) * ratio + 1 / 2⌋ := Int.floor_nonneg.mpr hposArg
  constructor
  · unfold dsWindowStart jsRound
    omega
  · unfold dsWindowStart jsRound
    have hstep : (j : ℚ) * ratio + 1 / 2 + 1 ≤ ((j : ℚ) + 1) * ratio + 1 / 2 := by nlinarith
    have : ⌊(j : ℚ) * ratio + 1 / 2⌋ + 1 ≤ ⌊((j : ℚ) + 1) * ratio + 1 / 2⌋ := by
      have h3 := Int.floor_mono hstep
      rw [Int.floor_add_one] at h3
      exact h3
    have hcast : (((j : ℕ) + 1 : ℕ) : ℚ) = (j : ℚ) + 1 := by push_cast; ring
    rw [hcast]
    omega

/-- Claim C7: for valid rates with `rateOut ≤ rateIn` the resampler succeeds
and its output length is `Math.round(inputLength * rateOut / rateIn)` up to
a tolerance of one sample (the proof gives the exact value), and when the
rates agree it returns the input itself. -/
theorem C7_resampler_output_length (buffer : List ℚ) (rateIn rateOut : ℚ)
    (h0 : 0 < rateOut) (hle : rateOut ≤ rateIn) :
    ∃ out, downsampleBuffer buffer rateIn rateOut = .ok out ∧
      ((out.length : ℤ) - jsRound ((buffer.length : ℚ) * rateOut / rateIn)).natAbs ≤ 1 ∧
      (rateOut = rateIn → out = buffer) := by
  by_cases heq : rateOut = rateIn
  · subst heq
    refine ⟨buffer, by simp [downsampleBuffer], ?_, fun _ => rfl⟩
    rw [mul_div_assoc, div_self (ne_of_gt h0), mul_one, jsRound_natCast]
    simp
  · have hlt : rateOut < rateIn := lt_of_le_of_ne hle heq
    have hInPos : 0 < rateIn := lt_trans h0 hlt
    have hnottrue : ¬ rateIn < rateOut := not_lt.mpr hle
    refine ⟨downsampleLoop buffer (rateIn / rateOut)
      ((jsRound ((buffer.length : ℚ) / (rateIn / rateOut))).toNat) 0 0, ?_, ?_, ?_⟩
    · simp [downsampleBuffer, heq, hnottrue]
    · rw [downsampleLoop_length]
      have harg : (buffer.length : ℚ) / (rateIn / rateOut) =
          (buffer.length : ℚ) * rateOut / rateIn := by
        field_simp
      rw [harg]
      have hnn : 0 ≤ jsRound ((buffer.length : ℚ) * rateOut / rateIn) :=
        jsRound_nonneg (by positivity)
      rw [Int.toNat_of_nonneg hnn]
      simp
    · intro h
      exact absurd h heq

/-- A closed instance of claim C7: four samples at 4 Hz resampled to 2 Hz. -/
theorem C7_resampler_output_length_witness :
    (0 : ℚ) < 2 ∧ (2 : ℚ) ≤ 4 ∧
    ∃ out, downsampleBuffer [1, 2, 3, 4] 4 2 = .ok out ∧
      ((out.length : ℤ) - jsRound ((([1, 2, 3, 4] : List ℚ).length : ℚ) * 2 / 4)).natAbs ≤ 1 ∧
      ((2 : ℚ) = 4 → out = [1, 2, 3, 4]) :=
  ⟨by decide, by decide, C7_resampler_output_length [1, 2, 3, 4] 4 2 (by decide) (by decide)⟩

/-- Claim C9: with `rateOut < rateIn` every output slot of the resampler is
the average of a non-empty window of input samples — the divisor `count` of
the source's `accum / count` is at least one, so the division by zero that
would produce `NaN` cannot happen. -/
theorem C9_resampler_no_empty_window (buffer : List ℚ) (rateIn rateOut : ℚ)
    (h0 : 0 < rateOut) (hlt : rateOut < rateIn) :
    ∃ out, downsampleBuffer buffer rateIn rateOut = .ok out ∧
      ∀ j, j < out.length →
        0 < dsCount buffer.length (rateIn / rateOut) j ∧
        out.getD j 0 = dsSum buffer (rateIn / rateOut) j /
          (dsCount buffer.length (rateIn / rateOut) j : ℚ) := by
  have heq : rateOut ≠ rateIn := ne_of_lt hlt
  have hnottrue : ¬ rateIn < rateOut := not_lt.mpr (le_of_lt hlt)
  have hratio : 1 < rateIn / rateOut := (one_lt_div h0).mpr hlt
  set N := (jsRound ((buffer.length : ℚ) / (rateIn / rateOut))).toNat with hN
  have hzero : dsWindowStart (rateIn / rateOut) 0 = 0 := by
    unfold dsWindowStart jsRound
    norm_num
  refine ⟨downsampleLoop buffer (rateIn / rateOut) N 0 0, ?_, ?_⟩
  · simp [downsampleBuffer, heq, hnottrue]
  · intro j hj
    rw [downsampleLoop_length] at hj
    have hout : downsampleLoop buffer (rateIn / rateOut) N 0 0 =
        (List.range' 0 N).map
          (fun k => dsSum buffer (rateIn / rateOut) k /
            (dsCount buffer.length (rateIn / rateOut) k : ℚ)) := by
      have h := downsampleLoop_eq_map buffer (rateIn / rateOut) N 0
      rw [hzero] at h
      exact h
    have hwin := @dsWindow_step buffer.length j (rateIn / rateOut) hratio (hN ▸ hj)
    constructor
    · unfold dsCount
      omega
    · rw [hout]
      have hlen : j < ((List.range' 0 N).map
          (fun k => dsSum buffer (rateIn / rateOut) k /
            (dsCount buffer.length (rateIn / rateOut) k : ℚ))).length := by
        simp [hj]
      rw [List.getD_eq_getElem _ _ hlen, List.getElem_map, List.getElem_range']
      simp

/-- A closed instance of claim C9: six samples at 3 Hz resampled to 2 Hz. -/
theorem C9_resampler_no_empty_window_witness :
    (0 : ℚ) < 2 ∧ (2 : ℚ) < 3 ∧
    ∃ out, downsampleBuffer [1, 0, 1, 0, 1, 0] 3 2 = .ok out ∧
      ∀ j, j < out.length →
        0 < dsCount ([1, 0, 1, 0, 1, 0] : List ℚ).length ((3 : ℚ) / 2) j ∧
        out.getD j 0 = dsSum [1, 0, 1, 0, 1, 0] ((3 : ℚ) / 2) j /
          (dsCount ([1, 0, 1, 0, 1, 0] : List ℚ).length ((3 : ℚ) / 2) j : ℚ) :=
  ⟨by decide, by decide,
    C9_resampler_no_empty_window [1, 0, 1, 0, 1, 0] 3 2 (by decide) (by decide)⟩

/-! ## WAV container codec (audio-utils: `encodeWAV`, `convertInt16ToFloat32`,
`decodeAudioData`) -/

/-- `Math.max(-1, Math.min(1, s))` of `encodeWAV`. -/
def clamp1 (s : ℚ) : ℚ := max (-1) (min 1 s)

/-- The quantizer of `encodeWAV`: clamp, scale by `0x8000` for negative and
`0x7FFF` for non-negative samples, then the ToInt16 truncation performed by
`DataView.setInt16`. -/
def sampleToInt16 (s : ℚ) : ℤ :=
  let c := clamp1 s
  if c < 0 then jsTrunc (c * 32768) else jsTrunc (c * 32767)

/-- Little-endian bytes of a 16-bit value stored by `setInt16(_, v, true)`
(two's complement wrap modulo 2^16). -/
def int16Bytes (v : ℤ) : List ℕ :=
  [(v % 65536).toNat % 256, (v % 65536).toNat / 256]

/-- Little-endian bytes of `setUint16(_, v, true)`. -/
def u16le (v : ℕ) : List ℕ := [v % 256, v / 256 % 256]

/-- Little-endian bytes of `setUint32(_, v, true)`. -/
def u32le (v : ℕ) : List ℕ :=
  [v % 256, v / 256 % 256, v / 65536 % 256, v / 16777216 % 256]

/-- `encodeWAV(samples, sampleRate)` from audio-utils: a canonical 44-byte
RIFF/WAVE header (the string literals are written as their ASCII codes:
"RIFF" = 82 73 70 70, "WAVE" = 87 65 86 69, "fmt " = 102 109 116 32,
"data" = 100 97 116 97) followed by the quantized samples, two
little-endian bytes each. -/
def encodeWAV (samples : List ℚ) (sampleRate : ℕ) : List ℕ :=
  [82, 73, 70, 70] ++ u32le (36 + samples.length * 2) ++
  [87, 65, 86, 69] ++ [102, 109, 116, 32] ++
  u32le 16 ++ u16le 1 ++ u16le 1 ++ u32le sampleRate ++ u32le (sampleRate * 2) ++
  u16le 2 ++ u16le 16 ++ [100, 97, 116, 97] ++ u32le (samples.length * 2) ++
  (samples.map (fun s => int16Bytes (sampleToInt16 s))).flatten

/-- The little-endian signed 16-bit value read by an `Int16Array` view from
two consecutive octets (the `% 256` normalizes arbitrary naturals to octets;
on genuine byte data it is the identity). -/
def int16FromLE (lo hi : ℕ) : ℤ :=
  if lo % 256 + 256 * (hi % 256) < 32768 then ((lo % 256 + 256 * (hi % 256) : ℕ) : ℤ)
  else ((lo % 256 + 256 * (hi % 256) : ℕ) : ℤ) - 65536

/-- `convertInt16ToFloat32(bytes)` from audio-utils: view the bytes as
little-endian Int16 (the view length `byteLength / 2` truncates, so an odd
trailing byte is ignored) and scale each value by `1 / 32768`. -/
def convertInt16ToFloat32 : List ℕ → List ℚ
  | lo :: hi :: rest => ((int16FromLE lo hi : ℤ) : ℚ) / 32768 :: convertInt16ToFloat32 rest
  | _ => []

/-- Modelled from the spec: the host platform's native `ctx.decodeAudioData`,
which is not part of this repository.  On the canonical mono 16-bit PCM WAV
buffers produced by `encodeWAV` it performs the inverse scaling
`int16 / 32768` over the data chunk that follows the 44-byte header
(spec 4.2: "decodePcm16(bytes): inverse scaling (int16/32768)"). -/
def nativeDecodePcm16 (data : List ℕ) : List ℚ :=
  convertInt16ToFloat32 (data.drop 44)

/-- `decodeAudioData(data, ...)` from audio-utils: buffers longer than 44
bytes that start with the "RIFF" magic go to the platform decoder, anything
else is treated as raw headerless Int16 PCM. -/
def decodeAudioData (data : List ℕ) : List ℚ :=
  if 44 < data.length ∧ data.take 4 = [82, 73, 70, 70] then nativeDecodePcm16 data
  else convertInt16ToFloat32 data

theorem clamp1_mem (s : ℚ) : -1 ≤ clamp1 s ∧ clamp1 s ≤ 1 := by
  unfold clamp1
  constructor
  · exact le_max_left _ _
  · exact max_le (by norm_num) (min_le_left _ _)

theorem clamp1_eq_self {s : ℚ} (h1 : -1 ≤ s) (h2 : s ≤ 1) : clamp1 s = s := by
  unfold clamp1
  rw [min_eq_right h2, max_eq_right h1]

theorem sampleToInt16_bounds (s : ℚ) :
    -32768 ≤ sampleToInt16 s ∧ sampleToInt16 s ≤ 32767 := by
  obtain ⟨hlo, hhi⟩ := clamp1_mem s
  unfold sampleToInt16 jsTrunc
  set c := clamp1 s with hc
  by_cases hneg : c < 0
  · have harg : c * 32768 < 0 := mul_neg_of_neg_of_pos hneg (by norm_num)
    rw [if_pos hneg, if_pos harg]
    constructor
    · have h1 : (-32768 : ℚ) ≤ c * 32768 := by nlinarith
      have h2 : ⌈((-32768 : ℤ) : ℚ)⌉ ≤ ⌈c * 32768⌉ := Int.ceil_mono (by exact_mod_cast h1)
      rw [Int.ceil_intCast] at h2
      exact h2
    · have h1 : c * 32768 ≤ ((0 : ℤ) : ℚ) := by exact_mod_cast le_of_lt harg
      have h2 : ⌈c * 32768⌉ ≤ ⌈((0 : ℤ) : ℚ)⌉ := Int.ceil_mono h1
      rw [Int.ceil_intCast] at h2
      omega
  · have hge : 0 ≤ c := le_of_not_lt hneg
    have hargnn : ¬ c * 32767 < 0 := not_lt.mpr (by positivity)
    rw [if_neg hneg, if_neg hargnn]
    constructor
    · have : (0 : ℤ) ≤ ⌊c * 32767⌋ := Int.floor_nonneg.mpr (by positivity)
      omega
    · have h1 : c * 32767 ≤ ((32767 : ℤ) : ℚ) := by push_cast; nlinarith
      have h2 : ⌊c * 32767⌋ ≤ ⌊((32767 : ℤ) : ℚ)⌋ := Int.floor_mono h1
      rw [Int.floor_intCast] at h2
      exact h2

theorem int16FromLE_int16Bytes {v : ℤ} (h1 : -32768 ≤ v) (h2 : v ≤ 32767) :
    int16FromLE ((v % 65536).toNat % 256) ((v % 65536).toNat / 256) = v := by
  unfold int16FromLE
  split_ifs <;> omega

theorem convertInt16ToFloat32_encode (l : List ℤ)
    (h : ∀ v ∈ l, -32768 ≤ v ∧ v ≤ 32767) :
    convertInt16ToFloat32 ((l.map int16Bytes).flatten) =
      l.map (fun v => ((v : ℤ) : ℚ) / 32768) := by
  induction l with
  | nil => rfl
  | cons v rest ih =>
    obtain ⟨hv, hrest⟩ := List.forall_mem_cons.mp h
    simp only [List.map_cons, List.flatten_cons]
    show convertInt16ToFloat32
      (((v % 65536).toNat % 256) :: ((v % 65536).toNat / 256) :: (rest.map int16Bytes).flatten) = _
    rw [convertInt16ToFloat32, int16FromLE_int16Bytes hv.1 hv.2, ih hrest]

/-- The fixed 44-byte RIFF/WAVE header emitted by `encodeWAV`. -/
theorem encodeWAV_header_length (n r : ℕ) :
    ([82, 73, 70, 70] ++ u32le (36 + n * 2) ++
     [87, 65, 86, 69] ++ [102, 109, 116, 32] ++
     u32le 16 ++ u16le 1 ++ u16le 1 ++ u32le r ++ u32le (r * 2) ++
     u16le 2 ++ u16le 16 ++ [100, 97, 116, 97] ++ u32le (n * 2) : List ℕ).length = 44 := by
  simp [u16le, u32le]

theorem length_flatten_int16 (l : List ℚ) :
    ((l.map (fun s => int16Bytes (sampleToInt16 s))).flatten).length = 2 * l.length := by
  induction l with
  | nil => rfl
  | cons a t ih =>
    have h2 : (int16Bytes (sampleToInt16 a)).length = 2 := rfl
    simp only [List.map_cons, List.flatten_cons, List.length_append, ih, h2, List.length_cons]
    omega

theorem encodeWAV_length (samples : List ℚ) (r : ℕ) :
    (encodeWAV samples r).length = 44 + 2 * samples.length := by
  unfold encodeWAV
  simp only [List.length_append, length_flatten_int16, u16le, u32le, List.length_cons,
    List.length_nil]

theorem encodeWAV_drop (samples : List ℚ) (r : ℕ) :
    (encodeWAV samples r).drop 44 =
      (samples.map (fun s => int16Bytes (sampleToInt16 s))).flatten := by
  unfold encodeWAV
  rw [show (44 : ℕ) = ([82, 73, 70, 70] ++ u32le (36 + samples.length * 2) ++
     [87, 65, 86, 69] ++ [102, 109, 116, 32] ++
     u32le 16 ++ u16le 1 ++ u16le 1 ++ u32le r ++ u32le (r * 2) ++
     u16le 2 ++ u16le 16 ++ [100, 97, 116, 97] ++
     u32le (samples.length * 2) : List ℕ).length from
     (encodeWAV_header_length samples.length r).symm]
  exact List.drop_left _ _

theorem decodeAudioData_encodeWAV (samples : List ℚ) (r : ℕ) (hne : samples ≠ []) :
    decodeAudioData (encodeWAV samples r) =
      samples.map (fun s => ((sampleToInt16 s : ℤ) : ℚ) / 32768) := by
  have hlen : 44 < (encodeWAV samples r).length := by
    rw [encodeWAV_length]
    have : 0 < samples.length := List.length_pos.mpr hne
    omega
  have htake : (encodeWAV samples r).take 4 = [82, 73, 70, 70] := by
    unfold encodeWAV
    rfl
  unfold decodeAudioData
  rw [if_pos ⟨hlen, htake⟩]
  unfold nativeDecodePcm16
  rw [encodeWAV_drop]
  rw [show (samples.map (fun s => int16Bytes (sampleToInt16 s))) =
      ((samples.map sampleToInt16).map int16Bytes) by rw [List.map_map]; rfl]
  rw [convertInt16ToFloat32_encode _
    (by intro v hv
        obtain ⟨s, _, rfl⟩ := List.mem_map.mp hv
        exact sampleToInt16_bounds s)]
  rw [List.map_map]
  rfl

theorem sampleToInt16_error {s : ℚ} (h1 : -1 ≤ s) (h2 : s ≤ 1) :
    |((sampleToInt16 s : ℤ) : ℚ) / 32768 - s| ≤ 2 / 32768 := by
  unfold sampleToInt16 jsTrunc
  rw [clamp1_eq_self h1 h2]
  by_cases hneg : s < 0
  · have harg : s * 32768 < 0 := mul_neg_of_neg_of_pos hneg (by norm_num)
    rw [if_pos hneg, if_pos harg]
    have hle : s * 32768 ≤ (⌈s * 32768⌉ : ℚ) := Int.le_ceil _
    have hlt : (⌈s * 32768⌉ : ℚ) < s * 32768 + 1 := Int.ceil_lt_add_one _
    rw [abs_le]
    constructor <;> [nlinarith; nlinarith]
  · have hge : 0 ≤ s := le_of_not_lt hneg
    have hargnn : ¬ s * 32767 < 0 := not_lt.mpr (by positivity)
    rw [if_neg hneg, if_neg hargnn]
    have hle : (⌊s * 32767⌋ : ℚ) ≤ s * 32767 := Int.floor_le _
    have hgt : s * 32767 - 1 < (⌊s * 32767⌋ : ℚ) := Int.sub_one_lt_floor _
    rw [abs_le]
    constructor <;> [nlinarith; nlinarith]

/-- Counterexample to claim C8 as stated ("for every sample sequence x ...
yields a sequence of the same length as x"): for the empty sample sequence
`encodeWAV` emits exactly the 44 header bytes, the `data.length > 44` test
of `decodeAudioData` fails, and the raw-PCM fallback decodes the 22 header
byte pairs as samples, so the decoded length is 22, not 0. -/
theorem C8_wav_roundtrip_counterexample :
    (decodeAudioData (encodeWAV [] 16000)).length = 22 ∧
    (([] : List ℚ)).length = 0 := by
  constructor
  · rfl
  · rfl

/-- Claim C8, amended: for every NON-EMPTY sample sequence with values in
[-1, 1], decoding the encoded WAV buffer yields a sequence of the same
length whose samples are within 2/32768 of the originals (the ToInt16
truncation plus the asymmetric scale — multiply by 32767 when encoding a
non-negative sample but divide by 32768 when decoding — each contribute up
to one 16-bit step of error). -/
theorem C8_wav_roundtrip (x : List ℚ) (r : ℕ) (hne : x ≠ [])
    (hrange : ∀ a ∈ x, -1 ≤ a ∧ a ≤ 1) :
    (decodeAudioData (encodeWAV x r)).length = x.length ∧
    ∀ i, i < x.length →
      |(decodeAudioData (encodeWAV x r)).getD i 0 - x.getD i 0| ≤ 2 / 32768 := by
  rw [decodeAudioData_encodeWAV x r hne]
  constructor
  · simp
  · intro i hi
    have hmapl : i < (x.map (fun s => ((sampleToInt16 s : ℤ) : ℚ) / 32768)).length := by
      simp [hi]
    rw [List.getD_eq_getElem _ _ hmapl, List.getD_eq_getElem _ _ hi, List.getElem_map]
    have hmem : x[i] ∈ x := List.getElem_mem hi
    exact sampleToInt16_error (hrange _ hmem).1 (hrange _ hmem).2

/-- A closed instance of the amended claim C8. -/
theorem C8_wav_roundtrip_witness :
    ([1, -1] : List ℚ) ≠ [] ∧
    (∀ a ∈ ([1, -1] : List ℚ), -1 ≤ a ∧ a ≤ 1) ∧
    ((decodeAudioData (encodeWAV [1, -1] 8000)).length = ([1, -1] : List ℚ).length ∧
     ∀ i, i < ([1, -1] : List ℚ).length →
       |(decodeAudioData (encodeWAV [1, -1] 8000)).getD i 0 -
         ([1, -1] : List ℚ).getD i 0| ≤ 2 / 32768) :=
  ⟨by decide, by decide, C8_wav_roundtrip [1, -1] 8000 (by decide) (by decide)⟩

theorem int16FromLE_bounds (lo hi : ℕ) :
    -32768 ≤ int16FromLE lo hi ∧ int16FromLE lo hi ≤ 32767 := by
  unfold int16FromLE
  split_ifs <;> omega

theorem convertInt16ToFloat32_length :
    ∀ bytes : List ℕ, (convertInt16ToFloat32 bytes).length = bytes.length / 2
  | [] => by simp [convertInt16ToFloat32]
  | [_] => by simp [convertInt16ToFloat32]
  | _ :: _ :: rest => by
    rw [convertInt16ToFloat32]
    simp only [List.length_cons, convertInt16ToFloat32_length rest]
    omega

theorem convertInt16ToFloat32_getD :
    ∀ (bytes : List ℕ) (i : ℕ), i < bytes.length / 2 →
      (convertInt16ToFloat32 bytes).getD i 0 =
        ((int16FromLE (bytes.getD (2 * i) 0) (bytes.getD (2 * i + 1) 0) : ℤ) : ℚ) / 32768
  | [], i, h => by simp only [List.length_nil] at h; omega
  | [_], i, h => by simp only [List.length_cons, List.length_nil] at h; omega
  | lo :: hi :: rest, 0, _ => by
    rw [convertInt16ToFloat32]
    rfl
  | lo :: hi :: rest, i + 1, h => by
    rw [convertInt16ToFloat32]
    have hrec := convertInt16ToFloat32_getD rest i
      (by simp only [List.length_cons] at h; omega)
    show (convertInt16ToFloat32 rest).getD i 0 = _
    rw [hrec]
    have e1 : (lo :: hi :: rest).getD (2 * (i + 1)) 0 = rest.getD (2 * i) 0 := by
      show (lo :: hi :: rest).getD (2 * i + 2) 0 = rest.getD (2 * i) 0
      rfl
    have e2 : (lo :: hi :: rest).getD (2 * (i + 1) + 1) 0 = rest.getD (2 * i + 1) 0 := by
      show (lo :: hi :: rest).getD (2 * i + 3) 0 = rest.getD (2 * i + 1) 0
      rfl
    rw [e1, e2]

/-- Claim C10: `convertInt16ToFloat32` is total on byte sequences of any
length — it yields exactly `byteLength / 2` samples, silently ignoring an
odd trailing byte, and each sample is the little-endian signed 16-bit value
of its byte pair divided by 32768, hence lies in [-1, 32767/32768].
(The even-view-offset proviso of the claim concerns only the JS typed-array
constructor; the byte content semantics is modelled here directly.) -/
theorem C10_convert_int16_total (bytes : List ℕ) :
    (convertInt16ToFloat32 bytes).length = bytes.length / 2 ∧
    ∀ i, i < bytes.length / 2 →
      (convertInt16ToFloat32 bytes).getD i 0 =
        ((int16FromLE (bytes.getD (2 * i) 0) (bytes.getD (2 * i + 1) 0) : ℤ) : ℚ) / 32768 ∧
      -1 ≤ (convertInt16ToFloat32 bytes).getD i 0 ∧
      (convertInt16ToFloat32 bytes).getD i 0 ≤ 32767 / 32768 := by
  refine ⟨convertInt16ToFloat32_length bytes, fun i hi => ?_⟩
  have hv := convertInt16ToFloat32_getD bytes i hi
  obtain ⟨hlo, hhi⟩ := int16FromLE_bounds (bytes.getD (2 * i) 0) (bytes.getD (2 * i + 1) 0)
  refine ⟨hv, ?_, ?_⟩
  · rw [hv, show (-1 : ℚ) = (-32768) / 32768 by norm_num]
    gcongr
    exact_mod_cast hlo
  · rw [hv, show (32767 / 32768 : ℚ) = ((32767 : ℤ) : ℚ) / 32768 by norm_num]
    gcongr

/-- A closed instance of claim C10: five bytes give two samples, the odd
trailing byte ignored; the byte pairs are 0x8000 (the most negative value,
decoding to -1) and 0x7FFF (the most positive, decoding to 32767/32768). -/
theorem C10_convert_int16_total_witness :
    (convertInt16ToFloat32 [0, 128, 255, 127, 9]).length =
      ([0, 128, 255, 127, 9] : List ℕ).length / 2 ∧
    ((convertInt16ToFloat32 [0, 128, 255, 127, 9]).getD 0 0 =
        ((int16FromLE (([0, 128, 255, 127, 9] : List ℕ).getD 0 0)
          (([0, 128, 255, 127, 9] : List ℕ).getD 1 0) : ℤ) : ℚ) / 32768 ∧
      -1 ≤ (convertInt16ToFloat32 [0, 128, 255, 127, 9]).getD 0 0 ∧
      (convertInt16ToFloat32 [0, 128, 255, 127, 9]).getD 0 0 ≤ 32767 / 32768) :=
  ⟨(C10_convert_int16_total [0, 128, 255, 127, 9]).1,
    (C10_convert_int16_total [0, 128, 255, 127, 9]).2 0 (by decide)⟩

/-! ## PlaybackScheduler: `scheduleAudioChunk` (useGeminiTranslator) -/

/-- `TARGET_SAMPLE_RATE` of useGeminiTranslator. -/
def TARGET_SAMPLE_RATE : ℕ := 24000

/-- Duration of the playback buffer built from a raw network chunk:
`createBuffer(1, float32Data.length, TARGET_SAMPLE_RATE)` has
`float32Data.length = byteLength / 2` frames, so
`buffer.duration = (byteLength / 2) / 24000` seconds. -/
def chunkDur (chunkBytes : ℕ) : ℚ := ((chunkBytes / 2 : ℕ) : ℚ) / (TARGET_SAMPLE_RATE : ℚ)

/-- The cursor logic of `scheduleAudioChunk`: raise `nextStartTime` to the
output clock if it has fallen behind, start the source at the (possibly
raised) cursor, and advance the cursor by the chunk's duration.  Returns
(scheduled start time, new cursor). -/
def scheduleAudioChunk (nextStartTime currentTime : ℚ) (chunkBytes : ℕ) : ℚ × ℚ :=
  let nst := if nextStartTime < currentTime then currentTime else nextStartTime
  (nst, nst + chunkDur chunkBytes)

/-- A session of enqueues: each event is (output-clock time at enqueue,
chunk byte length).  Returns the list of (scheduled start, duration) pairs
and the final cursor. -/
def runSchedule (n0 : ℚ) : List (ℚ × ℕ) → List (ℚ × ℚ) × ℚ
  | [] => ([], n0)
  | e :: es =>
    let p := scheduleAudioChunk n0 e.1 e.2
    let rest := runSchedule p.2 es
    ((p.1, chunkDur e.2) :: rest.1, rest.2)

/-- The cursor value just before the k-th enqueue. -/
def cursorAt (n0 : ℚ) (events : List (ℚ × ℕ)) (k : ℕ) : ℚ :=
  (runSchedule n0 (events.take k)).2

theorem chunkDur_nonneg (b : ℕ) : 0 ≤ chunkDur b := by
  unfold chunkDur
  positivity

theorem ite_lt_eq_max (a b : ℚ) : (if a < b then b else a) = max a b := by
  rcases lt_or_le a b with h | h
  · rw [if_pos h, max_eq_right (le_of_lt h)]
  · rw [if_neg (not_lt.mpr h), max_eq_left h]

theorem runSchedule_length (es : List (ℚ × ℕ)) :
    ∀ n0, (runSchedule n0 es).1.length = es.length := by
  induction es with
  | nil => intro n0; rfl
  | cons e t ih => intro n0; simp [runSchedule, ih]

theorem runSchedule_append (l1 l2 : List (ℚ × ℕ)) :
    ∀ n0, runSchedule n0 (l1 ++ l2) =
      ((runSchedule n0 l1).1 ++ (runSchedule (runSchedule n0 l1).2 l2).1,
       (runSchedule (runSchedule n0 l1).2 l2).2) := by
  induction l1 with
  | nil => intro n0; simp [runSchedule]
  | cons e t ih => intro n0; simp [runSchedule, ih]

theorem runSchedule_start_ge (es : List (ℚ × ℕ)) :
    ∀ n0, ∀ p ∈ (runSchedule n0 es).1, n0 ≤ p.1 := by
  induction es with
  | nil => intro n0 p hp; simp [runSchedule] at hp
  | cons e t ih =>
    intro n0 p hp
    simp only [runSchedule, List.mem_cons] at hp
    rcases hp with rfl | hp
    · show n0 ≤ (scheduleAudioChunk n0 e.1 e.2).1
      unfold scheduleAudioChunk
      dsimp only
      rw [ite_lt_eq_max]
      exact le_max_left _ _
    · have h1 := ih (scheduleAudioChunk n0 e.1 e.2).2 p hp
      have h2 : n0 ≤ (scheduleAudioChunk n0 e.1 e.2).2 := by
        unfold scheduleAudioChunk
        rw [ite_lt_eq_max]
        have := chunkDur_nonneg e.2
        have := le_max_left n0 e.1
        dsimp only
        linarith
      linarith

theorem runSchedule_chain (es : List (ℚ × ℕ)) :
    ∀ n0, List.Chain' (fun a b : ℚ × ℚ => a.1 + a.2 ≤ b.1) (runSchedule n0 es).1 := by
  induction es with
  | nil => intro n0; simp [runSchedule]
  | cons e t ih =>
    intro n0
    simp only [runSchedule]
    rw [List.chain'_cons']
    refine ⟨?_, ih _⟩
    intro b hb
    have hmem : b ∈ (runSchedule (scheduleAudioChunk n0 e.1 e.2).2 t).1 :=
      List.mem_of_mem_head? hb
    have := runSchedule_start_ge t (scheduleAudioChunk n0 e.1 e.2).2 b hmem
    unfold scheduleAudioChunk at this ⊢
    dsimp only at this ⊢
    linarith

theorem cursorAt_zero (n0 : ℚ) (es : List (ℚ × ℕ)) : cursorAt n0 es 0 = n0 := rfl

theorem cursorAt_succ (n0 : ℚ) (es : List (ℚ × ℕ)) (k : ℕ) (hk : k < es.length) :
    cursorAt n0 es (k + 1) =
      max (cursorAt n0 es k) es[k].1 + chunkDur es[k].2 := by
  unfold cursorAt
  rw [List.take_succ, List.getElem?_eq_getElem hk]
  rw [show (some es[k]).toList = [es[k]] from rfl]
  rw [runSchedule_append]
  show (runSchedule _ [es[k]]).2 = _
  simp only [runSchedule, scheduleAudioChunk, ite_lt_eq_max]

theorem cursorAt_succ_past (n0 : ℚ) (es : List (ℚ × ℕ)) (k : ℕ) (hk : es.length ≤ k) :
    cursorAt n0 es (k + 1) = cursorAt n0 es k := by
  unfold cursorAt
  rw [List.take_of_length_le hk, List.take_of_length_le (le_trans hk (Nat.le_succ k))]

theorem cursorAt_mono_succ (n0 : ℚ) (es : List (ℚ × ℕ)) (k : ℕ) :
    cursorAt n0 es k ≤ cursorAt n0 es (k + 1) := by
  rcases lt_or_le k es.length with hk | hk
  · rw [cursorAt_succ n0 es k hk]
    have := chunkDur_nonneg es[k].2
    have := le_max_left (cursorAt n0 es k) es[k].1
    linarith
  · rw [cursorAt_succ_past n0 es k hk]

theorem le_cursorAt (n0 : ℚ) (es : List (ℚ × ℕ)) (k : ℕ) : n0 ≤ cursorAt n0 es k := by
  induction k with
  | zero => exact le_of_eq (cursorAt_zero n0 es).symm
  | succ k ih => exact le_trans ih (cursorAt_mono_succ n0 es k)

theorem runSchedule_getD (n0 : ℚ) (es : List (ℚ × ℕ)) (k : ℕ) (hk : k < es.length) :
    (runSchedule n0 es).1.getD k (0, 0) =
      (max (cursorAt n0 es k) es[k].1, chunkDur es[k].2) := by
  conv_lhs => rw [show es = es.take (k + 1) ++ es.drop (k + 1) from (List.take_append_drop _ _).symm]
  rw [runSchedule_append]
  have hlen1 : (runSchedule n0 (es.take (k + 1))).1.length = k + 1 := by
    rw [runSchedule_length, List.length_take]
    omega
  rw [List.getD_append _ _ _ _ (by omega)]
  rw [List.take_succ, List.getElem?_eq_getElem hk]
  rw [show (some es[k]).toList = [es[k]] from rfl]
  rw [runSchedule_append]
  have hlen0 : (runSchedule n0 (es.take k)).1.length = k := by
    rw [runSchedule_length, List.length_take]
    omega
  rw [List.getD_append_right _ _ _ _ hlen0.le, hlen0, Nat.sub_self]
  show ((runSchedule (cursorAt n0 es k) [es[k]]).1).getD 0 (0, 0) = _
  simp only [runSchedule, scheduleAudioChunk, ite_lt_eq_max]
  rfl

/-- Claim C4: on every enqueue the cursor is first raised to the output
clock time if behind (the scheduled start is the max of the two), the chunk
starts exactly at the raised cursor, and the cursor advances by exactly the
chunk's duration; the cursor is monotone across enqueues, consecutive
scheduled segments never overlap, and when every chunk arrives in time
(clock at or behind the cursor) the k-th start is the initial cursor plus
the total duration of the previous chunks — three in-time 1-second chunks
start at t0, t0 + 1, t0 + 2. -/
theorem C4_playback_scheduling (n0 : ℚ) (events : List (ℚ × ℕ)) :
    (∀ k, (hk : k < events.length) →
      (runSchedule n0 events).1.getD k (0, 0) =
        (max (cursorAt n0 events k) events[k].1, chunkDur events[k].2) ∧
      cursorAt n0 events (k + 1) =
        max (cursorAt n0 events k) events[k].1 + chunkDur events[k].2) ∧
    (∀ k, cursorAt n0 events k ≤ cursorAt n0 events (k + 1)) ∧
    List.Chain' (fun a b : ℚ × ℚ => a.1 + a.2 ≤ b.1) (runSchedule n0 events).1 ∧
    ((∀ j, (hj : j < events.length) → events[j].1 ≤ cursorAt n0 events j) →
      ∀ k, (hk : k < events.length) →
        ((runSchedule n0 events).1.getD k (0, 0)).1 =
          n0 + ((events.take k).map (fun e => chunkDur e.2)).sum) := by
  refine ⟨fun k hk => ⟨runSchedule_getD n0 events k hk, cursorAt_succ n0 events k hk⟩,
    cursorAt_mono_succ n0 events, runSchedule_chain events n0, ?_⟩
  intro hit
  have hcur : ∀ k, k ≤ events.length →
      cursorAt n0 events k = n0 + ((events.take k).map (fun e => chunkDur e.2)).sum := by
    intro k
    induction k with
    | zero => intro _; simp [cursorAt_zero]
    | succ k ih =>
      intro hk1
      have hk : k < events.length := by omega
      rw [cursorAt_succ n0 events k hk, max_eq_left (hit k hk), ih (le_of_lt hk)]
      rw [List.take_succ, List.getElem?_eq_getElem hk]
      rw [show (some events[k]).toList = [events[k]] from rfl]
      simp only [List.map_append, List.sum_append, List.map_cons, List.map_nil,
        List.sum_cons, List.sum_nil]
      ring
  intro k hk
  rw [runSchedule_getD n0 events k hk]
  show max (cursorAt n0 events k) events[k].1 = _
  rw [max_eq_left (hit k hk), hcur k (le_of_lt hk)]

/-- A closed instance of claim C4: three 1-second (48000-byte) chunks all
arriving at clock time 0, with initial cursor 0; each arrives in time, so
the starts are 0, 0 + 1, 0 + 1 + 1. -/
theorem C4_playback_scheduling_witness :
    (∀ j, (hj : j < ([((0 : ℚ), 48000), (0, 48000), (0, 48000)] : List (ℚ × ℕ)).length) →
      ([((0 : ℚ), 48000), (0, 48000), (0, 48000)] : List (ℚ × ℕ))[j].1 ≤
        cursorAt 0 [((0 : ℚ), 48000), (0, 48000), (0, 48000)] j) ∧
    ∀ k, (hk : k < ([((0 : ℚ), 48000), (0, 48000), (0, 48000)] : List (ℚ × ℕ)).length) →
      ((runSchedule 0 [((0 : ℚ), 48000), (0, 48000), (0, 48000)]).1.getD k (0, 0)).1 =
        0 + ((([((0 : ℚ), 48000), (0, 48000), (0, 48000)] : List (ℚ × ℕ)).take k).map
          (fun e => chunkDur e.2)).sum := by
  have hit : ∀ j, (hj : j < ([((0 : ℚ), 48000), (0, 48000), (0, 48000)] : List (ℚ × ℕ)).length) →
      ([((0 : ℚ), 48000), (0, 48000), (0, 48000)] : List (ℚ × ℕ))[j].1 ≤
        cursorAt 0 [((0 : ℚ), 48000), (0, 48000), (0, 48000)] j := by
    intro j hj
    have hz : ([((0 : ℚ), 48000), (0, 48000), (0, 48000)] : List (ℚ × ℕ))[j].1 = 0 := by
      match j, hj with
      | 0, _ => rfl
      | 1, _ => rfl
      | 2, _ => rfl
    rw [hz]
    exact le_cursorAt 0 _ j
  exact ⟨hit, (C4_playback_scheduling 0 [((0 : ℚ), 48000), (0, 48000), (0, 48000)]).2.2.2 hit⟩

/-! ## Session dispatch model (useGeminiTranslator: `processAudioBuffer`,
`onaudioprocess`, the periodic flush timer, and completion of
`sendAudioPayload`)

The hook runs on a single cooperative JS thread; the only suspension point
inside `processAudioBuffer` is `await sendAudioPayload(...)`, so a session
is a sequence of atomic events: an `onaudioprocess` append (which appends
the downsampled block and then calls `processAudioBuffer` when the trigger
condition holds), a timer tick (which calls `processAudioBuffer`), and the
settlement of the awaited `sendAudioPayload` promise (fulfilled or
rejected — the `try/catch/finally` makes both paths clear the flag).
`outstanding` counts in-flight `sendAudioPayload` calls, and `appended`,
`taken`, `sent` are history variables recording every sample ever appended,
every segment removed from the accumulation buffer, and every segment
actually dispatched (a taken segment that fails the silence gate is
discarded without being sent). -/

structure GemState where
  isProcessing : Bool
  buf : List ℚ
  outstanding : ℕ
  appended : List ℚ
  taken : List (List ℚ)
  sent : List (List ℚ)

def initGemState : GemState :=
  { isProcessing := false, buf := [], outstanding := 0,
    appended := [], taken := [], sent := [] }

/-- The silence-gate sum of `processAudioBuffer`:
`for (i = 0; i < len; i += 100) sum += Math.abs(inputData[i])`. -/
def silenceSum (seg : List ℚ) : ℚ :=
  ((List.range' 0 ((seg.length + 99) / 100) 100).map (fun i => |seg.getD i 0|)).sum

/-- The silence gate: `avg = sum / (len / 100); avg < 0.01`. -/
def isSilent (seg : List ℚ) : Prop :=
  silenceSum seg / ((seg.length : ℚ) / 100) < 1 / 100

instance (seg : List ℚ) : Decidable (isSilent seg) := by
  unfold isSilent
  infer_instance

/-- `processAudioBuffer`: return unless the buffer is non-empty, at least
`TARGET_SAMPLE_RATE * 2` samples long, and no request is in flight; then
take the buffer (emptying it), and either discard it as silence (clearing
the flag synchronously) or dispatch it via `sendAudioPayload`, leaving the
flag set until the request settles. -/
def processAudioBuffer (s : GemState) : GemState :=
  if s.isProcessing = true ∨ s.buf.length = 0 then s
  else if s.buf.length < TARGET_SAMPLE_RATE * 2 then s
  else
    let inputData := s.buf
    let s1 : GemState :=
      { s with isProcessing := true, buf := [], taken := s.taken ++ [inputData] }
    if isSilent inputData then { s1 with isProcessing := false }
    else { s1 with outstanding := s1.outstanding + 1, sent := s1.sent ++ [inputData] }

inductive GemEvent
  | append (chunk : List ℚ)
  | tick
  | complete (ok : Bool)

/-- One atomic step of the session: an `onaudioprocess` callback append
(with its `!isProcessingRef.current && length > TARGET_SAMPLE_RATE * 3`
trigger), a 1-second timer tick, or the settlement of the awaited
`sendAudioPayload` (either fulfilled or rejected; the `finally` clears the
in-flight flag in both cases). -/
def stepGem (s : GemState) (e : GemEvent) : GemState :=
  match e with
  | .append chunk =>
    let s1 : GemState := { s with buf := s.buf ++ chunk, appended := s.appended ++ chunk }
    if s1.isProcessing = false ∧ TARGET_SAMPLE_RATE * 3 < s1.buf.length
    then processAudioBuffer s1 else s1
  | .tick => processAudioBuffer s
  | .complete _ =>
    if s.outstanding = 0 then s
    else { s with isProcessing := false, outstanding := s.outstanding - 1 }

def runGem (s : GemState) (es : List GemEvent) : GemState := es.foldl stepGem s

def gemReachable (s : GemState) : Prop := ∃ es, s = runGem initGemState es

/-- The session invariant: the in-flight counter mirrors the flag, the
history of appended samples is exactly the taken segments followed by the
current buffer, and the dispatched segments are a subsequence of the taken
segments. -/
def gemInv (s : GemState) : Prop :=
  s.outstanding = (if s.isProcessing then 1 else 0) ∧
  s.appended = s.taken.flatten ++ s.buf ∧
  s.sent.Sublist s.taken

theorem gemInv_init : gemInv initGemState := by
  refine ⟨rfl, rfl, List.Sublist.refl _⟩

theorem gemInv_processAudioBuffer {s : GemState} (h : gemInv s) :
    gemInv (processAudioBuffer s) := by
  obtain ⟨ho, ha, hs⟩ := h
  unfold processAudioBuffer
  split_ifs with h1 h2
  · exact ⟨ho, ha, hs⟩
  · exact ⟨ho, ha, hs⟩
  · push_neg at h1
    have hflag : s.isProcessing = false := by
      cases hb : s.isProcessing
      · rfl
      · exact absurd hb h1.1
    dsimp only
    split_ifs with h3
    · refine ⟨?_, ?_, ?_⟩
      · show s.outstanding = _
        rw [ho, hflag]
      · show s.appended = (s.taken ++ [s.buf]).flatten ++ []
        rw [List.flatten_append, ha]
        simp
      · exact hs.trans (List.sublist_append_left _ _)
    · refine ⟨?_, ?_, ?_⟩
      · show s.outstanding + 1 = _
        rw [ho, hflag]
        rfl
      · show s.appended = (s.taken ++ [s.buf]).flatten ++ []
        rw [List.flatten_append, ha]
        simp
      · exact hs.append (List.Sublist.refl _)

theorem gemInv_step {s : GemState} (h : gemInv s) (e : GemEvent) :
    gemInv (stepGem s e) := by
  obtain ⟨ho, ha, hs⟩ := h
  cases e with
  | append chunk =>
    have h1 : gemInv { s with buf := s.buf ++ chunk, appended := s.appended ++ chunk } := by
      refine ⟨ho, ?_, hs⟩
      show s.appended ++ chunk = s.taken.flatten ++ (s.buf ++ chunk)
      rw [ha, List.append_assoc]
    unfold stepGem
    dsimp only
    split_ifs with hcond
    · exact gemInv_processAudioBuffer h1
    · exact h1
  | tick => exact gemInv_processAudioBuffer ⟨ho, ha, hs⟩
  | complete ok =>
    unfold stepGem
    split_ifs with h0
    · exact ⟨ho, ha, hs⟩
    · have hflag : s.isProcessing = true := by
        cases hb : s.isProcessing
        · rw [hb] at ho
          simp at ho
          exact absurd ho h0
        · rfl
      refine ⟨?_, ha, hs⟩
      show s.outstanding - 1 = _
      rw [ho, hflag]
      simp

theorem gemInv_run (es : List GemEvent) :
    ∀ s, gemInv s → gemInv (runGem s es) := by
  induction es with
  | nil => intro s h; exact h
  | cons e t ih =>
    intro s h
    show gemInv (runGem (stepGem s e) t)
    exact ih _ (gemInv_step h e)

theorem gemInv_reachable {s : GemState} (hs : gemReachable s) : gemInv s := by
  obtain ⟨es, rfl⟩ := hs
  exact gemInv_run es initGemState gemInv_init

/-- While the in-flight flag is set, no event can dispatch: an append sees
the trigger condition fail, a tick returns at the guard, and a completion
only clears the flag. -/
theorem stepGem_sent_frozen (s : GemState) (hp : s.isProcessing = true) (e : GemEvent) :
    (stepGem s e).sent = s.sent := by
  cases e with
  | append chunk => simp [stepGem, hp]
  | tick => simp [stepGem, processAudioBuffer, hp]
  | complete ok =>
    show (if s.outstanding = 0 then s
      else { s with isProcessing := false, outstanding := s.outstanding - 1 }).sent = s.sent
    split <;> rfl

/-- Claim C1: in every reachable session state at most one transcoding
request is outstanding, and while the in-flight flag is set no event
(append, flush tick, or completion) can start another dispatch. -/
theorem C1_single_in_flight (s : GemState) (hs : gemReachable s) :
    s.outstanding ≤ 1 ∧
    (s.isProcessing = true → ∀ e, (stepGem s e).sent = s.sent) := by
  have hinv := gemInv_reachable hs
  constructor
  · rw [hinv.1]
    split <;> omega
  · intro hp e
    exact stepGem_sent_frozen s hp e

/-- A closed instance of claim C1 at the initial session state. -/
theorem C1_single_in_flight_witness :
    gemReachable initGemState ∧
    (initGemState.outstanding ≤ 1 ∧
     (initGemState.isProcessing = true →
       ∀ e, (stepGem initGemState e).sent = initGemState.sent)) :=
  ⟨⟨[], rfl⟩, C1_single_in_flight initGemState ⟨[], rfl⟩⟩

theorem flatten_sublist_of_sublist {α : Type} {l₁ l₂ : List (List α)}
    (h : l₁.Sublist l₂) : l₁.flatten.Sublist l₂.flatten := by
  induction h with
  | slnil => exact List.Sublist.refl _
  | cons a _ ih => exact ih.trans (List.sublist_append_right _ _)
  | cons₂ a _ ih => exact ih.append_left a

/-- Claim C2: `processAudioBuffer` dispatches only when no request is in
flight and the buffer holds at least `TARGET_SAMPLE_RATE * 2` (2 seconds)
of samples; a dispatch forwards exactly the buffered samples and empties
the buffer; and over any session run the dispatched segments are a
subsequence of the taken segments, which concatenate with the live buffer
to exactly the appended history — so no appended sample is ever delivered
twice. -/
theorem C2_dispatch_exactly_once (s : GemState) :
    ((processAudioBuffer s).sent ≠ s.sent →
      s.isProcessing = false ∧ TARGET_SAMPLE_RATE * 2 ≤ s.buf.length ∧
      (processAudioBuffer s).sent = s.sent ++ [s.buf] ∧
      (processAudioBuffer s).buf = []) ∧
    (gemReachable s →
      s.appended = s.taken.flatten ++ s.buf ∧
      s.sent.Sublist s.taken ∧
      s.sent.flatten.Sublist s.appended) := by
  constructor
  · intro hne
    by_cases h1 : s.isProcessing = true ∨ s.buf.length = 0
    · rw [processAudioBuffer, if_pos h1] at hne
      exact absurd rfl hne
    by_cases h2 : s.buf.length < TARGET_SAMPLE_RATE * 2
    · rw [processAudioBuffer, if_neg h1, if_pos h2] at hne
      exact absurd rfl hne
    have hflag : s.isProcessing = false := by
      cases hb : s.isProcessing
      · rfl
      · exact absurd (Or.inl hb) h1
    by_cases h3 : isSilent s.buf
    · rw [processAudioBuffer, if_neg h1, if_neg h2] at hne
      dsimp only at hne
      rw [if_pos h3] at hne
      exact absurd rfl hne
    · refine ⟨hflag, not_lt.mp h2, ?_, ?_⟩
      · rw [processAudioBuffer, if_neg h1, if_neg h2]
        dsimp only
        rw [if_neg h3]
      · rw [processAudioBuffer, if_neg h1, if_neg h2]
        dsimp only
        rw [if_neg h3]
  · intro hs
    have hinv := gemInv_reachable hs
    refine ⟨hinv.2.1, hinv.2.2, ?_⟩
    have h1 : s.sent.flatten.Sublist s.taken.flatten :=
      flatten_sublist_of_sublist hinv.2.2
    have h2 : s.taken.flatten.Sublist s.appended := by
      rw [hinv.2.1]
      exact List.sublist_append_left _ _
    exact h1.trans h2

/-- A closed instance of claim C2 at the initial session state. -/
theorem C2_dispatch_exactly_once_witness :
    gemReachable initGemState ∧
    (initGemState.appended = initGemState.taken.flatten ++ initGemState.buf ∧
     initGemState.sent.Sublist initGemState.taken ∧
     initGemState.sent.flatten.Sublist initGemState.appended) :=
  ⟨⟨[], rfl⟩, (C2_dispatch_exactly_once initGemState).2 ⟨[], rfl⟩⟩

theorem silenceSum_append_replicate (pre : List ℚ) (m : ℕ) :
    (m : ℚ) ≤ silenceSum (pre ++ List.replicate (100 * m) 1) := by
  have hlen : (pre ++ List.replicate (100 * m) 1).length = pre.length + 100 * m := by
    simp
  unfold silenceSum
  rw [hlen]
  have hK : (pre.length + 100 * m + 99) / 100 = m + (pre.length + 99) / 100 := by omega
  rw [hK, ← List.range'_append 0 ((pre.length + 99) / 100) m 100]
  rw [List.map_append, List.sum_append]
  have h1 : 0 ≤ ((List.range' 0 ((pre.length + 99) / 100) 100).map
      (fun i => |(pre ++ List.replicate (100 * m) 1).getD i 0|)).sum := by
    apply List.sum_nonneg
    intro x hx
    obtain ⟨i, _, rfl⟩ := List.mem_map.mp hx
    exact abs_nonneg _
  have h2 : ((List.range' (0 + 100 * ((pre.length + 99) / 100)) m 100).map
      (fun i => |(pre ++ List.replicate (100 * m) 1).getD i 0|)).sum = (m : ℚ) := by
    have hone : ∀ x ∈ List.range' (0 + 100 * ((pre.length + 99) / 100)) m 100,
        |(pre ++ List.replicate (100 * m) 1).getD x 0| = 1 := by
      intro x hx
      obtain ⟨j, hj, rfl⟩ := List.mem_range'.mp hx
      have hxL : pre.length ≤ 0 + 100 * ((pre.length + 99) / 100) + 100 * j := by omega
      have hidx : 0 + 100 * ((pre.length + 99) / 100) + 100 * j - pre.length < 100 * m := by
        omega
      rw [List.getD_append_right _ _ _ _ hxL]
      rw [List.getD_eq_getElem _ _ (by simpa using hidx)]
      rw [List.getElem_replicate]
      norm_num
    rw [List.map_congr_left hone]
    have : (List.range' (0 + 100 * ((pre.length + 99) / 100)) m 100).map
        (fun _ => (1 : ℚ)) = List.replicate m 1 := by
      rw [List.map_const']
      rw [List.length_range']
    rw [this, List.sum_replicate, nsmul_eq_mul, mul_one]
  rw [h2]
  linarith

theorem not_isSilent_append_replicate (pre : List ℚ) :
    ¬ isSilent (pre ++ List.replicate (100 * (pre.length + 10000)) 1) := by
  have hsum := silenceSum_append_replicate pre (pre.length + 10000)
  unfold isSilent
  rw [not_lt]
  have hlen : (pre ++ List.replicate (100 * (pre.length + 10000)) 1).length =
      pre.length + 100 * (pre.length + 10000) := by simp
  rw [hlen]
  have hposn : (0 : ℚ) < ((pre.length + 100 * (pre.length + 10000) : ℕ) : ℚ) := by
    exact_mod_cast (by omega : 0 < pre.length + 100 * (pre.length + 10000))
  have hpos : (0 : ℚ) < ((pre.length + 100 * (pre.length + 10000) : ℕ) : ℚ) / 100 :=
    div_pos hposn (by norm_num)
  rw [le_div_iff₀ hpos]
  have hcast : ((pre.length + 100 * (pre.length + 10000) : ℕ) : ℚ) =
      (pre.length : ℚ) + 100 * ((pre.length : ℚ) + 10000) := by
    push_cast
    ring
  have hm : ((pre.length + 10000 : ℕ) : ℚ) = (pre.length : ℚ) + 10000 := by
    push_cast
    ring
  rw [hm] at hsum
  have hLnn : (0 : ℚ) ≤ (pre.length : ℚ) := Nat.cast_nonneg _
  calc (1 : ℚ) / 100 * (((pre.length + 100 * (pre.length + 10000) : ℕ) : ℚ) / 100)
      = ((pre.length : ℚ) + 100 * ((pre.length : ℚ) + 10000)) / 10000 := by
        rw [hcast]; ring
    _ ≤ (pre.length : ℚ) + 10000 := by
        rw [div_le_iff₀ (by norm_num : (0 : ℚ) < 10000)]
        linarith
    _ ≤ silenceSum (pre ++ List.replicate (100 * (pre.length + 10000)) 1) := hsum

/-- Claim C3: every settlement of the awaited `sendAudioPayload` — fulfilled
or rejected (e.g. an HTTP 500 turned into a thrown error) — leaves the
in-flight flag clear, and from the resulting state a single loud-enough
append produces a new dispatch: the gate is never leaked and an HTTP error
never causes a permanent stall. -/
theorem C3_gate_always_released (s : GemState) (hs : gemReachable s) (ok : Bool) :
    (stepGem s (.complete ok)).isProcessing = false ∧
    ∃ chunk, (stepGem (stepGem s (.complete ok)) (.append chunk)).sent.length =
      (stepGem s (.complete ok)).sent.length + 1 := by
  have hinv := gemInv_reachable hs
  have hflag : (stepGem s (.complete ok)).isProcessing = false := by
    unfold stepGem
    split_ifs with h0
    · rw [hinv.1] at h0
      cases hb : s.isProcessing
      · rfl
      · rw [hb] at h0
        simp at h0
    · rfl
  refine ⟨hflag, ?_⟩
  set s1 := stepGem s (.complete ok) with hs1
  refine ⟨List.replicate (100 * (s1.buf.length + 10000)) 1, ?_⟩
  have hlen2 : (s1.buf ++ List.replicate (100 * (s1.buf.length + 10000)) 1).length =
      s1.buf.length + 100 * (s1.buf.length + 10000) := by simp
  show (stepGem s1 (.append (List.replicate (100 * (s1.buf.length + 10000)) 1))).sent.length = _
  unfold stepGem
  dsimp only
  rw [if_pos ⟨hflag, by rw [hlen2]; unfold TARGET_SAMPLE_RATE; omega⟩]
  unfold processAudioBuffer
  rw [if_neg (by
    dsimp only
    rw [hflag, hlen2]
    push_neg
    exact ⟨by simp, by omega⟩)]
  rw [if_neg (by
    dsimp only
    rw [hlen2]
    unfold TARGET_SAMPLE_RATE
    omega)]
  dsimp only
  rw [if_neg (not_isSilent_append_replicate s1.buf)]
  simp

/-- A closed instance of claim C3 at the initial session state. -/
theorem C3_gate_always_released_witness :
    gemReachable initGemState ∧
    ((stepGem initGemState (.complete true)).isProcessing = false ∧
     ∃ chunk, (stepGem (stepGem initGemState (.complete true)) (.append chunk)).sent.length =
       (stepGem initGemState (.complete true)).sent.length + 1) :=
  ⟨⟨[], rfl⟩, C3_gate_always_released initGemState ⟨[], rfl⟩ true⟩

/-! ## Teardown model (`cleanup`, `stopTranslation`)

The resource handles held in refs by the hook: the captured media stream,
the script-processor node (with the flush interval stored on it), the
media-stream source node, and the input and output audio contexts.  An
audio context can be `running`, `suspended` or `closed`; `cleanup` closes
and nulls a context only when its state is not `closed`. -/

/-- The `ConnectionState` enum of the `../types` module
(src/unnamed/part_000, lines 1-6): `DISCONNECTED`, `CONNECTING`,
`CONNECTED`, `ERROR`. -/
inductive ConnectionState
  | DISCONNECTED
  | CONNECTING
  | CONNECTED
  | ERROR
deriving DecidableEq

inductive CtxState
  | running
  | suspended
  | closed
deriving DecidableEq

/-- The observable release actions of teardown, in the source's wording:
`clearInterval`, `track.stop()` on the capture stream, `disconnect()` on
the processor and source nodes, `close()` on the input and output
contexts. -/
inductive ReleaseAction
  | clearTimer
  | stopTracks
  | disconnectProcessor
  | disconnectSource
  | closeInput
  | closeOutput
deriving DecidableEq

structure HookState where
  sourceStream : Bool
  processor : Bool
  hasInterval : Bool
  sourceNode : Bool
  inputCtx : Option CtxState
  outputCtx : Option CtxState
  connectionState : ConnectionState
  statusMessage : String
deriving DecidableEq

/-- The never-started session: every ref null, state Disconnected. -/
def initHookState : HookState :=
  { sourceStream := false, processor := false, hasInterval := false, sourceNode := false,
    inputCtx := none, outputCtx := none,
    connectionState := ConnectionState.DISCONNECTED, statusMessage := "" }

/-- `clearInterval((processor as any)._interval)` guarded by
`processorRef.current && _interval` — the interval id lives on the
processor object, so the timer can only be cleared while the processor ref
is live. -/
def timerPhase : HookState × List ReleaseAction → HookState × List ReleaseAction
  | (s, log) =>
    if s.processor = true ∧ s.hasInterval = true then
      ({ s with hasInterval := false }, log ++ [ReleaseAction.clearTimer])
    else (s, log)

/-- `if (sourceStream) { tracks.forEach(stop); setSourceStream(null) }`. -/
def streamPhase : HookState × List ReleaseAction → HookState × List ReleaseAction
  | (s, log) =>
    if s.sourceStream = true then
      ({ s with sourceStream := false }, log ++ [ReleaseAction.stopTracks])
    else (s, log)

/-- `if (processorRef.current) { disconnect(); null }`. -/
def processorPhase : HookState × List ReleaseAction → HookState × List ReleaseAction
  | (s, log) =>
    if s.processor = true then
      ({ s with processor := false }, log ++ [ReleaseAction.disconnectProcessor])
    else (s, log)

/-- `if (sourceNodeRef.current) { disconnect(); null }`. -/
def sourceNodePhase : HookState × List ReleaseAction → HookState × List ReleaseAction
  | (s, log) =>
    if s.sourceNode = true then
      ({ s with sourceNode := false }, log ++ [ReleaseAction.disconnectSource])
    else (s, log)

/-- `if (inputContextRef.current && state !== closed) { close(); null }`. -/
def inputCtxPhase : HookState × List ReleaseAction → HookState × List ReleaseAction
  | (s, log) =>
    match s.inputCtx with
    | some c =>
      if c ≠ CtxState.closed then ({ s with inputCtx := none }, log ++ [ReleaseAction.closeInput])
      else (s, log)
    | none => (s, log)

/-- `if (outputContextRef.current && state !== closed) { close(); null }`. -/
def outputCtxPhase : HookState × List ReleaseAction → HookState × List ReleaseAction
  | (s, log) =>
    match s.outputCtx with
    | some c =>
      if c ≠ CtxState.closed then ({ s with outputCtx := none }, log ++ [ReleaseAction.closeOutput])
      else (s, log)
    | none => (s, log)

/-- `setConnectionState(DISCONNECTED); setStatusMessage('')`. -/
def finalPhase : HookState × List ReleaseAction → HookState × List ReleaseAction
  | (s, log) =>
    ({ s with connectionState := ConnectionState.DISCONNECTED, statusMessage := "" }, log)

/-- `cleanup`: stop + null the stream tracks, disconnect + null the
processor, disconnect + null the source node, close + null each context
that exists and is not already closed, then set Disconnected and clear the
status text.  Every access is guarded by the corresponding null check, so
the function is total; the returned list records the release actions in
program order. -/
def cleanup (s : HookState) : HookState × List ReleaseAction :=
  finalPhase (outputCtxPhase (inputCtxPhase (sourceNodePhase (processorPhase
    (streamPhase (s, []))))))

/-- `stopTranslation`: clear the flush interval if the processor ref is
non-null and carries one, then run `cleanup`. -/
def stopTranslation (s : HookState) : HookState × List ReleaseAction :=
  match timerPhase (s, []) with
  | (s0, log0) =>
    match cleanup s0 with
    | (s1, log1) => (s1, log0 ++ log1)

/-- All acquired resources are gone and the session is Disconnected. -/
def released (s : HookState) : Prop :=
  s.sourceStream = false ∧ s.processor = false ∧ s.hasInterval = false ∧
  s.sourceNode = false ∧ s.inputCtx = none ∧ s.outputCtx = none ∧
  s.connectionState = ConnectionState.DISCONNECTED

instance (s : HookState) : Decidable (released s) := by
  unfold released
  infer_instance

/-- A fully initialized connected session. -/
def fullHookState : HookState :=
  { sourceStream := true, processor := true, hasInterval := true, sourceNode := true,
    inputCtx := some CtxState.running, outputCtx := some CtxState.running,
    connectionState := ConnectionState.CONNECTED, statusMessage := "Listening..." }

set_option maxHeartbeats 2000000 in
/-- Claim C5: stop is idempotent — stopping a never-started session is a
no-op, stopping twice equals stopping once (and the second stop performs no
release action) — and after a stop every acquired handle is released and
nulled and the state is Disconnected.  The release conjunct assumes the
run-time invariants that an interval is only stored on a live processor ref
and that a context ref never holds an already-closed context (the hook
nulls a ref whenever it closes the context). -/
theorem C5_stop_idempotent (s : HookState) :
    (stopTranslation initHookState).1 = initHookState ∧
    (stopTranslation (stopTranslation s).1).1 = (stopTranslation s).1 ∧
    (stopTranslation (stopTranslation s).1).2 = [] ∧
    ((s.hasInterval = true → s.processor = true) →
      s.inputCtx ≠ some CtxState.closed → s.outputCtx ≠ some CtxState.closed →
      released (stopTranslation s).1) := by
  obtain ⟨ss, pr, hi, sn, ic, oc, cs, msg⟩ := s
  refine ⟨by decide, ?_, ?_, ?_⟩
  · rcases ic with _ | c <;> (try cases c) <;> rcases oc with _ | d <;> (try cases d) <;>
      cases ss <;> cases pr <;> cases hi <;> cases sn <;> rfl
  · rcases ic with _ | c <;> (try cases c) <;> rcases oc with _ | d <;> (try cases d) <;>
      cases ss <;> cases pr <;> cases hi <;> cases sn <;> rfl
  · rcases ic with _ | c <;> (try cases c) <;> rcases oc with _ | d <;> (try cases d) <;>
      cases ss <;> cases pr <;> cases hi <;> cases sn <;> intro h1 h2 h3 <;>
      first
        | exact absurd (h1 rfl) Bool.false_ne_true
        | exact absurd rfl h2
        | exact absurd rfl h3
        | exact ⟨rfl, rfl, rfl, rfl, rfl, rfl, rfl⟩

/-- A closed instance of claim C5 at the fully initialized session. -/
theorem C5_stop_idempotent_witness :
    ((fullHookState.hasInterval = true → fullHookState.processor = true) ∧
     fullHookState.inputCtx ≠ some CtxState.closed ∧
     fullHookState.outputCtx ≠ some CtxState.closed) ∧
    ((stopTranslation (stopTranslation fullHookState).1).1 = (stopTranslation fullHookState).1 ∧
     released (stopTranslation fullHookState).1) :=
  ⟨by decide,
   (C5_stop_idempotent fullHookState).2.1,
   (C5_stop_idempotent fullHookState).2.2.2 (by decide) (by decide) (by decide)⟩

/-- Counterexample to claim C6 as stated: on a fully initialized session
the code clears the timer, then stops the capture stream TRACKS, then
disconnects the capture-graph NODES, then closes the input and output
contexts — the claim (and spec 4.7) puts the capture-graph nodes before the
stream tracks, which is not the program order of `cleanup`. -/
theorem C6_teardown_order_counterexample :
    (stopTranslation fullHookState).2 =
      [ReleaseAction.clearTimer, ReleaseAction.stopTracks, ReleaseAction.disconnectProcessor,
       ReleaseAction.disconnectSource, ReleaseAction.closeInput, ReleaseAction.closeOutput] ∧
    (stopTranslation fullHookState).2 ≠
      [ReleaseAction.clearTimer, ReleaseAction.disconnectProcessor,
       ReleaseAction.disconnectSource, ReleaseAction.stopTracks,
       ReleaseAction.closeInput, ReleaseAction.closeOutput] := by
  exact ⟨by decide, by decide⟩

/-- Follows the amended claim's wording: the release order is periodic
timer, capture stream tracks, capture-graph nodes (processor then source),
input audio graph, output audio graph, each action present exactly when the
corresponding handle was acquired (the timer needs a live processor ref
that carries an interval; a context must exist and not be already
closed). -/
def specTeardownLog (s : HookState) : List ReleaseAction :=
  (if s.processor = true ∧ s.hasInterval = true then [ReleaseAction.clearTimer] else []) ++
  (if s.sourceStream = true then [ReleaseAction.stopTracks] else []) ++
  (if s.processor = true then [ReleaseAction.disconnectProcessor] else []) ++
  (if s.sourceNode = true then [ReleaseAction.disconnectSource] else []) ++
  (if s.inputCtx ≠ none ∧ s.inputCtx ≠ some CtxState.closed
   then [ReleaseAction.closeInput] else []) ++
  (if s.outputCtx ≠ none ∧ s.outputCtx ≠ some CtxState.closed
   then [ReleaseAction.closeOutput] else [])

theorem ite_singleton_sublist (c : Prop) [Decidable c] (x : ReleaseAction) :
    (if c then [x] else []).Sublist [x] := by
  split_ifs
  · exact List.Sublist.refl _
  · exact List.nil_sublist _

set_option maxHeartbeats 2000000 in
/-- Claim C6, amended: teardown releases, in this order, exactly the
acquired handles — periodic timer, capture STREAM TRACKS, capture-graph
NODES (processor, then source), input audio graph, output audio graph —
from any state, skipping never-acquired handles without error; the emitted
log is always a subsequence of that canonical order. -/
theorem C6_teardown_release_order (s : HookState) :
    (stopTranslation s).2 = specTeardownLog s ∧
    (stopTranslation s).2.Sublist
      [ReleaseAction.clearTimer, ReleaseAction.stopTracks, ReleaseAction.disconnectProcessor,
       ReleaseAction.disconnectSource, ReleaseAction.closeInput, ReleaseAction.closeOutput] := by
  have heq : (stopTranslation s).2 = specTeardownLog s := by
    obtain ⟨ss, pr, hi, sn, ic, oc, cs, msg⟩ := s
    rcases ic with _ | c <;> (try cases c) <;> rcases oc with _ | d <;> (try cases d) <;>
      cases ss <;> cases pr <;> cases hi <;> cases sn <;> rfl
  refine ⟨heq, ?_⟩
  rw [heq]
  exact List.Sublist.append (List.Sublist.append (List.Sublist.append (List.Sublist.append
    (List.Sublist.append (ite_singleton_sublist _ _) (ite_singleton_sublist _ _))
    (ite_singleton_sublist _ _)) (ite_singleton_sublist _ _)) (ite_singleton_sublist _ _))
    (ite_singleton_sublist _ _)

end SimInterp
